import Mathlib

/-
  Verification of the SNLI data-preparation pipeline (`dataset.py`).

  The pipeline is embedded shallowly:
  * file contents are lists of lines (strings without their trailing newline);
  * Python `str.split` is modelled character by character (`splitStr`);
  * Python dicts that are iterated (the unseen-word accumulator) are
    insertion-ordered association lists; dicts that are only read and updated
    by key (the embedding table, the contribution counts) are functions
    `String → Option _`;
  * numpy float vectors are lists of rationals; `np.add` on equal-length
    vectors is pointwise addition (`vecAdd`), `/= c` is pointwise division;
  * exceptions (`KeyError` on an unknown gold label, `IndexError` on a record
    with fewer than three columns, `ValueError` on a malformed pretrained
    vector field) are modelled with `Except`;
  * `float(...)` parsing is an explicit parameter `pf : String → Option ℚ`.
-/

/-- Word vectors: lists of rationals (numpy float arrays in the source). -/
abbrev Vec := List ℚ

/-- Embedding table: Python dict used only by key lookup and key assignment. -/
abbrev Embeds := String → Option Vec

/-- Pointwise vector addition (`np.add` on equal-length arrays). -/
def vecAdd (u v : Vec) : Vec := List.zipWith (· + ·) u v

/-- Pointwise division of a vector by a scalar count (`vec /= c`). -/
def vecDiv (v : Vec) (c : ℕ) : Vec := v.map (· / (c : ℚ))

/-- `np.zeros(dim)`. -/
def zerosVec (dim : ℕ) : Vec := List.replicate dim 0

/-- Character-level splitter: Python `str.split(sep)` for a one-character
separator (splits at every occurrence, keeping empty pieces). -/
def splitChars (sep : Char) : List Char → List Char → List (List Char)
  | acc, [] => [acc.reverse]
  | acc, c :: cs =>
    if c = sep then acc.reverse :: splitChars sep [] cs
    else splitChars sep (c :: acc) cs

/-- Python `s.split(sep)` for a one-character separator. -/
def splitStr (sep : Char) (s : String) : List String :=
  (splitChars sep [] s.data).map (fun cs => String.mk cs)

/-- Python `s.rstrip()`: drop trailing whitespace. -/
def rstrip (s : String) : String :=
  String.mk (s.data.reverse.dropWhile Char.isWhitespace).reverse

/-- The tab-separated columns of one record line (`line.rstrip().split('\t')`). -/
def lineCols (line : String) : List String := splitStr '\t' (rstrip line)

/-- Tokens of a sentence column: split on single spaces and drop the
parse-tree bracket tokens `"("` and `")"`. -/
def sentTokens (col : String) : List String :=
  (splitStr ' ' col).filter (fun w => w ≠ "(" ∧ w ≠ ")")

/-- `label_dict = {'entailment': 0, 'contradiction': 1, 'neutral': 2}`,
with a failed lookup (Python `KeyError`) as `none`. -/
def label_dict (s : String) : Option ℕ :=
  if s = "entailment" then some 0
  else if s = "contradiction" then some 1
  else if s = "neutral" then some 2
  else none

/-- Errors the pipeline can raise: `IndexError` on a record with fewer than
three tab-separated columns, `KeyError` on an unknown gold label (the spec's
`UnknownLabelError`), `ValueError` on an unparseable pretrained vector field
(the spec's `MalformedVectorError`). -/
inductive PipeError where
  | missingColumn : PipeError
  | unknownLabel : String → PipeError
  | malformedVector : PipeError
deriving DecidableEq

/-- One Example: `[premise tokens, hypothesis tokens, integer label]`. -/
abbrev Example := List String × List String × ℕ

/-- First-match lookup in an insertion-ordered association list. -/
def alistLookup : List (String × Vec) → String → Option Vec
  | [], _ => none
  | (k, v) :: rest, x => if x = k then some v else alistLookup rest x

/-- Python dict membership test `w in d`. -/
def alistMem (l : List (String × Vec)) (x : String) : Bool :=
  (alistLookup l x).isSome

/-- Python dict assignment `d[k] = v`: replace the value at an existing key in
place, or append a fresh key at the end. -/
def alistUpdate : List (String × Vec) → String → Vec → List (String × Vec)
  | [], k, v => [(k, v)]
  | (k', v') :: rest, k, v =>
    if k = k' then (k, v) :: rest else (k', v') :: alistUpdate rest k v

/-- The two global accumulators of the OOV approximation:
`unseen_word_dict` (running vector sums, iterated at finalization, hence an
ordered association list) and `unseen_word_count_dict` (contribution counts). -/
structure OOVState where
  unseen : List (String × Vec)
  counts : String → Option ℕ

/-- The accumulators start empty. -/
def initState : OOVState := ⟨[], fun _ => none⟩

/-- The offsets `range(-window_size, window_size + 1)` as integers. -/
def offsets (wsz : ℕ) : List ℤ :=
  (List.range (2 * wsz + 1)).map (fun k => (k : ℤ) - (wsz : ℤ))

/-- Configuration fields the modelled code reads. -/
structure Config where
  embedding_dim : ℕ
  window_size : ℕ

/-- The body of the window loop of `approximate_unseen`: if offset `r` is
nonzero, position `i + r` is inside the sentence, and the token there is in
the pretrained table, add that neighbor's pretrained vector to the running
sum of the out-of-vocabulary token `w` and bump `w`'s contribution count
(initializing it to 1 on its first contribution). -/
def approxNeighbor (emb : Embeds) (sentence : List String) (i : ℕ) (w : String)
    (st3 : OOVState) (r : ℤ) : OOVState :=
  if r ≠ 0 ∧ 0 ≤ (i : ℤ) + r ∧ (i : ℤ) + r < (sentence.length : ℤ) then
    match emb (sentence.getD ((i : ℤ) + r).toNat "") with
    | some nv =>
      { unseen := alistUpdate st3.unseen w
          (vecAdd ((alistLookup st3.unseen w).getD []) nv),
        counts := fun x =>
          if x = w then
            match st3.counts w with
            | some n => some (n + 1)
            | none => some 1
          else st3.counts x }
    | none => st3
  else st3

/-- The body of the position loop of `approximate_unseen` at position/token
pair `p`: skip tokens covered by the pretrained table; otherwise initialize
the token's running sum to the zero vector if this is its first encounter
anywhere, then run the window loop. -/
def approxToken (emb : Embeds) (cfg : Config) (sentence : List String)
    (st1 : OOVState) (p : ℕ × String) : OOVState :=
  if (emb p.2).isSome then st1
  else
    let st2 :=
      if alistMem st1.unseen p.2 then st1
      else { st1 with unseen := st1.unseen ++ [(p.2, zerosVec cfg.embedding_dim)] }
    (offsets cfg.window_size).foldl (approxNeighbor emb sentence p.1 p.2) st2

/-- `approximate_unseen(sentence)` from `SNLIData.load`: for every sentence
position holding a token absent from the pretrained table, initialize its
running sum to the zero vector on first encounter, then add the pretrained
vector of every in-window, in-bounds, covered neighbor to the running sum and
bump the contribution count by one per neighbor. -/
def approximate_unseen (emb : Embeds) (cfg : Config) (st : OOVState)
    (sentence : List String) : OOVState :=
  sentence.enum.foldl (approxToken emb cfg sentence) st

/-- `update_dict(data_path)` from `SNLIData.build_word_set`: scan one file,
skipping the header line and records labelled `-`, and accumulate every
premise and hypothesis token.  The Python set is modelled as a list (only
membership matters); a record with fewer than three columns raises
`IndexError`. -/
def update_dict : ℕ → List String → List String → Except PipeError (List String)
  | _, [], acc => .ok acc
  | idx, line :: rest, acc =>
    if idx = 0 then update_dict (idx + 1) rest acc
    else
      let cols := lineCols line
      if cols.getD 0 "" = "-" then update_dict (idx + 1) rest acc
      else if cols.length < 3 then .error .missingColumn
      else update_dict (idx + 1) rest
        (acc ++ sentTokens (cols.getD 1 "") ++ sentTokens (cols.getD 2 ""))

/-- `SNLIData.build_word_set`: the word set accumulated over the train, valid
and test files, in that order. -/
def build_word_set (trainL validL testL : List String) :
    Except PipeError (List String) :=
  match update_dict 0 trainL [] with
  | .error e => .error e
  | .ok ws1 =>
    match update_dict 0 validL ws1 with
    | .error e => .error e
    | .ok ws2 => update_dict 0 testL ws2

/-- `SNLIData.get_glove`: scan the pretrained file; for a line whose first
space-separated field is a vocabulary member, parse the remaining fields as
floats (a parse failure raises `ValueError`) and assign the vector to the
word; otherwise discard the line without parsing it. -/
def get_glove (pf : String → Option ℚ) (ws : List String) :
    List String → Embeds → Except PipeError Embeds
  | [], acc => .ok acc
  | line :: rest, acc =>
    let cols := splitStr ' ' line
    if cols.getD 0 "" ∈ ws then
      match cols.tail.mapM pf with
      | some v => get_glove pf ws rest
          (fun x => if x = cols.getD 0 "" then some v else acc x)
      | none => .error .malformedVector
    else get_glove pf ws rest acc

/-- `SNLIData.load(data_path)`: scan one partition file, skipping the header
line and records labelled `-`; tokenize premise and hypothesis, map the gold
label through `label_dict` (`KeyError` on an unknown label), run the OOV
approximation on both sentences, and append the example. -/
def load (emb : Embeds) (cfg : Config) :
    ℕ → List String → List Example → OOVState →
    Except PipeError (List Example × OOVState)
  | _, [], acc, st => .ok (acc, st)
  | idx, line :: rest, acc, st =>
    if idx = 0 then load emb cfg (idx + 1) rest acc st
    else
      let cols := lineCols line
      if cols.getD 0 "" = "-" then load emb cfg (idx + 1) rest acc st
      else if cols.length < 3 then .error .missingColumn
      else
        let premise := sentTokens (cols.getD 1 "")
        let hypothesis := sentTokens (cols.getD 2 "")
        match label_dict (cols.getD 0 "") with
        | none => .error (.unknownLabel (cols.getD 0 ""))
        | some y =>
          let st1 := approximate_unseen emb cfg st premise
          let st2 := approximate_unseen emb cfg st1 hypothesis
          load emb cfg (idx + 1) rest (acc ++ [(premise, hypothesis, y)]) st2

/-- The OOV merge loop of `SNLIData.get_total`: for each unseen word in
insertion order, if it has a contribution count, divide its running sum by the
count and assign the result to the word in the embedding table; otherwise only
print the word (the table is not touched). -/
def mergeUnseen (counts : String → Option ℕ) :
    List (String × Vec) → Embeds → Embeds
  | [], emb => emb
  | (w, v) :: rest, emb =>
    match counts w with
    | some c => mergeUnseen counts rest
        (fun x => if x = w then some (vecDiv v c) else emb x)
    | none => mergeUnseen counts rest emb

/-- The in-place division of `unseen_word_dict` values performed by the same
loop (keys and order are unchanged). -/
def finalizeUnseen (counts : String → Option ℕ) (l : List (String × Vec)) :
    List (String × Vec) :=
  l.map (fun p =>
    match counts p.1 with
    | some c => (p.1, vecDiv p.2 c)
    | none => p)

/-- Everything `SNLIData.__init__` builds that the claims talk about. -/
structure PipelineResult where
  wordSet : List String
  gloveEmbeds : Embeds
  unseen : List (String × Vec)
  counts : String → Option ℕ
  train : List Example
  valid : List Example
  test : List Example
  finalEmbeds : Embeds

/-- `SNLIData.__init__` restricted to the modelled state: build the word set
over all three partitions, load the pretrained table restricted to it, load
the three partitions (threading the OOV accumulators), and merge the averaged
OOV vectors into the embedding table (`get_total`). -/
def pipeline (cfg : Config) (pf : String → Option ℚ)
    (trainL validL testL gloveL : List String) :
    Except PipeError PipelineResult :=
  match build_word_set trainL validL testL with
  | .error e => .error e
  | .ok ws =>
    match get_glove pf ws gloveL (fun _ => none) with
    | .error e => .error e
    | .ok emb =>
      match load emb cfg 0 trainL [] initState with
      | .error e => .error e
      | .ok (tr, stA) =>
        match load emb cfg 0 validL [] stA with
        | .error e => .error e
        | .ok (va, stB) =>
          match load emb cfg 0 testL [] stB with
          | .error e => .error e
          | .ok (te, stC) =>
            .ok { wordSet := ws
                  gloveEmbeds := emb
                  unseen := finalizeUnseen stC.counts stC.unseen
                  counts := stC.counts
                  train := tr
                  valid := va
                  test := te
                  finalEmbeds := mergeUnseen stC.counts stC.unseen emb }

/-- Wrap-around to a signed 64-bit integer (`dtype=torch.int64`). -/
def toInt64 (z : ℤ) : ℤ := (z + 2 ^ 63) % 2 ^ 64 - 2 ^ 63

/-- `SNLIData.batchify`: collate a batch of (already index-mapped) examples
into the premise matrix (`torch.tensor` of the first fields) and the label
vector (third fields), both as int64.  A tensor is modelled as a list (of
rows). -/
def batchify (b : List (List ℤ × List ℤ × ℤ)) : List (List ℤ) × List ℤ :=
  (b.map (fun e => e.1.map toInt64), b.map (fun e => toInt64 e.2.2))

/-- `SNLIDataset.__len__`. -/
def datasetLen (examples : List Example) : ℕ := examples.length

/-- `SNLIDataset.__getitem__`. -/
def datasetGet (examples : List Example) (index : ℕ) : Option Example :=
  examples.get? index

/-! ### Association-list lemmas -/

/-- The keys of an association list, in insertion order. -/
def alistKeys (l : List (String × Vec)) : List String := l.map Prod.fst

theorem alistLookup_eq_none_iff (l : List (String × Vec)) (x : String) :
    alistLookup l x = none ↔ x ∉ alistKeys l := by
  induction l with
  | nil => simp [alistLookup, alistKeys]
  | cons p rest ih =>
    obtain ⟨k, v⟩ := p
    by_cases hx : x = k <;> simp [alistLookup, alistKeys, hx, ih]

theorem alistLookup_isSome_iff (l : List (String × Vec)) (x : String) :
    (alistLookup l x).isSome = true ↔ x ∈ alistKeys l := by
  constructor
  · intro h
    by_contra hmem
    rw [(alistLookup_eq_none_iff l x).mpr hmem] at h
    simp at h
  · intro h
    cases hl : alistLookup l x with
    | none => exact absurd h ((alistLookup_eq_none_iff l x).mp hl)
    | some v => rfl

theorem alistLookup_append_right (l : List (String × Vec)) (k : String) (v : Vec)
    (x : String) (h : alistLookup l x = none) :
    alistLookup (l ++ [(k, v)]) x = if x = k then some v else none := by
  induction l with
  | nil => simp [alistLookup]
  | cons p rest ih =>
    obtain ⟨k', v'⟩ := p
    by_cases hx : x = k'
    · simp [alistLookup, hx] at h
    · simp only [alistLookup, hx, if_false, List.cons_append] at h ⊢
      exact ih h

theorem alistLookup_append_left (l : List (String × Vec)) (k : String) (v : Vec)
    (x : String) (h : x ≠ k) :
    alistLookup (l ++ [(k, v)]) x = alistLookup l x := by
  induction l with
  | nil => simp [alistLookup, h]
  | cons p rest ih =>
    obtain ⟨k', v'⟩ := p
    by_cases hx : x = k'
    · simp [alistLookup, hx]
    · simp [alistLookup, hx, ih]

theorem alistLookup_update (l : List (String × Vec)) (k : String) (v : Vec)
    (x : String) :
    alistLookup (alistUpdate l k v) x = if x = k then some v else alistLookup l x := by
  induction l with
  | nil => simp [alistUpdate, alistLookup]
  | cons p rest ih =>
    obtain ⟨k', v'⟩ := p
    by_cases hk : k = k'
    · subst hk
      by_cases hx : x = k <;> simp [alistUpdate, alistLookup, hx]
    · by_cases hx : x = k'
      · subst hx
        have hxk : ¬ x = k := fun h => hk h.symm
        simp [alistUpdate, alistLookup, hk, hxk]
      · simp [alistUpdate, alistLookup, hk, hx, ih]

theorem alistKeys_update (l : List (String × Vec)) (k : String) (v : Vec) :
    alistKeys (alistUpdate l k v) =
      if k ∈ alistKeys l then alistKeys l else alistKeys l ++ [k] := by
  induction l with
  | nil => simp [alistUpdate, alistKeys]
  | cons p rest ih =>
    obtain ⟨k', v'⟩ := p
    by_cases hk : k = k'
    · subst hk; simp [alistUpdate, alistKeys]
    · simp only [alistKeys, List.map_cons] at ih ⊢
      simp only [alistUpdate, hk, if_false, List.map_cons, ih, List.mem_cons]
      by_cases hmem : k ∈ List.map Prod.fst rest <;> simp [hmem, hk]

theorem alistKeys_update_nodup (l : List (String × Vec)) (k : String) (v : Vec)
    (h : (alistKeys l).Nodup) : (alistKeys (alistUpdate l k v)).Nodup := by
  rw [alistKeys_update]
  by_cases hmem : k ∈ alistKeys l <;> simp [hmem, h, List.Nodup.append, List.nodup_append]

/-! ### Generic fold lemmas -/

theorem foldl_congr_fun {α σ : Type} (g g' : σ → α → σ) (l : List α) (s : σ)
    (h : ∀ s a, g s a = g' s a) : l.foldl g s = l.foldl g' s := by
  have : g = g' := by funext s a; exact h s a
  rw [this]

theorem foldl_filterMap_eq {α β σ : Type} (f : α → Option β) (g : σ → α → σ)
    (h : σ → β → σ)
    (hgf : ∀ s a, g s a = match f a with | some b => h s b | none => s) :
    ∀ (l : List α) (s : σ), l.foldl g s = (l.filterMap f).foldl h s := by
  intro l
  induction l with
  | nil => intro s; simp
  | cons a t ih =>
    intro s
    rw [List.filterMap_cons]
    cases hfa : f a with
    | none => simpa [List.foldl_cons, hgf s a, hfa] using ih s
    | some b => simpa [List.foldl_cons, hgf s a, hfa] using ih (h s b)

theorem foldl_flatMap {α β σ : Type} (f : α → List β) (g : σ → β → σ) :
    ∀ (l : List α) (s : σ),
      (l.flatMap f).foldl g s = l.foldl (fun st a => (f a).foldl g st) s := by
  intro l
  induction l with
  | nil => intro s; simp
  | cons a t ih => intro s; simp [List.flatMap_cons, List.foldl_append, ih]

/-! ### Event view of the OOV accumulation

The nested loops of `approximate_unseen` are linearized into a flat list of
events: `ensure w` (first-encounter initialization of the running sum) and
`contrib w nv` (one covered neighbor's vector added to `w`'s running sum and
one bump of `w`'s contribution count).  Folding `applyEvent` over the event
list is proved equal to running the loops, and the global accumulator
invariant is then a single induction over events. -/

inductive OOVEvent where
  | ensure : String → OOVEvent
  | contrib : String → Vec → OOVEvent

/-- The out-of-vocabulary word an event concerns. -/
def eventWord : OOVEvent → String
  | .ensure w => w
  | .contrib w _ => w

/-- Apply one event to the accumulator state, exactly as the corresponding
piece of `approximate_unseen` does. -/
def applyEvent (dim : ℕ) (st : OOVState) : OOVEvent → OOVState
  | .ensure w =>
    if alistMem st.unseen w then st
    else { st with unseen := st.unseen ++ [(w, zerosVec dim)] }
  | .contrib w nv =>
    { unseen := alistUpdate st.unseen w
        (vecAdd ((alistLookup st.unseen w).getD []) nv),
      counts := fun x =>
        if x = w then
          match st.counts w with
          | some n => some (n + 1)
          | none => some 1
        else st.counts x }

/-- The pretrained vector contributed by offset `r` at position `i`, when the
offset is nonzero, in bounds, and the neighbor is covered. -/
def neighborVec (emb : Embeds) (sentence : List String) (i : ℕ) (r : ℤ) :
    Option Vec :=
  if r ≠ 0 ∧ 0 ≤ (i : ℤ) + r ∧ (i : ℤ) + r < (sentence.length : ℤ) then
    emb (sentence.getD ((i : ℤ) + r).toNat "")
  else none

/-- All neighbor vectors contributed by one sentence position, in window
order: one for each offset `r` in `[-window_size, window_size]`, `r ≠ 0`,
with `i + r` in bounds and the token there in the pretrained table. -/
def contribsAt (emb : Embeds) (wsz : ℕ) (sentence : List String) (i : ℕ) :
    List Vec :=
  (offsets wsz).filterMap (neighborVec emb sentence i)

/-- The events generated while processing one position/token pair. -/
def tokenEvents (emb : Embeds) (cfg : Config) (sentence : List String)
    (i : ℕ) (w : String) : List OOVEvent :=
  if (emb w).isSome then []
  else .ensure w ::
    (contribsAt emb cfg.window_size sentence i).map (.contrib w ·)

/-- The events generated while processing one sentence. -/
def sentenceEvents (emb : Embeds) (cfg : Config) (sentence : List String) :
    List OOVEvent :=
  sentence.enum.flatMap (fun p => tokenEvents emb cfg sentence p.1 p.2)

/-- The events generated while processing a list of sentences. -/
def corpusEvents (emb : Embeds) (cfg : Config)
    (sentences : List (List String)) : List OOVEvent :=
  sentences.flatMap (sentenceEvents emb cfg)

theorem approxNeighbor_eq (emb : Embeds) (dim : ℕ) (sentence : List String)
    (i : ℕ) (w : String) (st : OOVState) (r : ℤ) :
    approxNeighbor emb sentence i w st r =
      match neighborVec emb sentence i r with
      | some nv => applyEvent dim st (.contrib w nv)
      | none => st := by
  rw [approxNeighbor, neighborVec]
  split
  · cases emb (sentence.getD ((i : ℤ) + r).toNat "") <;> rfl
  · rfl

theorem approxToken_eq (emb : Embeds) (cfg : Config) (sentence : List String)
    (st : OOVState) (p : ℕ × String) :
    approxToken emb cfg sentence st p =
      (tokenEvents emb cfg sentence p.1 p.2).foldl
        (applyEvent cfg.embedding_dim) st := by
  rw [approxToken, tokenEvents]
  cases hw : (emb p.2).isSome
  · simp only [hw, Bool.false_eq_true, if_false, List.foldl_cons]
    have hbase :
        (if alistMem st.unseen p.2 then st
         else { st with
                unseen := st.unseen ++ [(p.2, zerosVec cfg.embedding_dim)] }) =
          applyEvent cfg.embedding_dim st (.ensure p.2) := rfl
    rw [hbase]
    rw [foldl_filterMap_eq (neighborVec emb sentence p.1)
      (approxNeighbor emb sentence p.1 p.2)
      (fun s v => applyEvent cfg.embedding_dim s (.contrib p.2 v))
      (fun s r => by
        have h := approxNeighbor_eq emb cfg.embedding_dim sentence p.1 p.2 s r
        cases hnv : neighborVec emb sentence p.1 r <;>
          simp only [hnv] at h ⊢ <;> exact h)]
    rw [List.foldl_map]
    rfl
  · simp [hw]

theorem approximate_unseen_eq (emb : Embeds) (cfg : Config) (st : OOVState)
    (sentence : List String) :
    approximate_unseen emb cfg st sentence =
      (sentenceEvents emb cfg sentence).foldl (applyEvent cfg.embedding_dim) st := by
  rw [approximate_unseen, sentenceEvents, foldl_flatMap]
  exact foldl_congr_fun _ _ _ _
    (fun s p => approxToken_eq emb cfg sentence s p)

theorem fold_approximate_eq (emb : Embeds) (cfg : Config)
    (sentences : List (List String)) (st : OOVState) :
    sentences.foldl (approximate_unseen emb cfg) st =
      (corpusEvents emb cfg sentences).foldl (applyEvent cfg.embedding_dim) st := by
  rw [corpusEvents, foldl_flatMap]
  exact foldl_congr_fun _ _ _ _
    (fun s sent => approximate_unseen_eq emb cfg s sent)

/-! ### Per-word semantics of an event list -/

/-- The neighbor vectors contributed to word `w` by an event list, in order. -/
def evContribs (evs : List OOVEvent) (w : String) : List Vec :=
  evs.filterMap (fun e =>
    match e with
    | .contrib w' nv => if w' = w then some nv else none
    | .ensure _ => none)

/-- Whether any event concerns word `w`. -/
def evTouched (evs : List OOVEvent) (w : String) : Bool :=
  evs.any (fun e => eventWord e == w)

/-- The running sum accumulated for `w`: the zero vector of the configured
dimension plus all of `w`'s contributed neighbor vectors, in order. -/
def evSum (dim : ℕ) (evs : List OOVEvent) (w : String) : Vec :=
  (evContribs evs w).foldl vecAdd (zerosVec dim)

theorem evContribs_append (a b : List OOVEvent) (w : String) :
    evContribs (a ++ b) w = evContribs a w ++ evContribs b w := by
  simp [evContribs, List.filterMap_append]

theorem evTouched_append (a b : List OOVEvent) (w : String) :
    evTouched (a ++ b) w = (evTouched a w || evTouched b w) := by
  simp [evTouched, List.any_append]

theorem evSum_append_contrib (dim : ℕ) (pre : List OOVEvent) (w : String)
    (nv : Vec) :
    evSum dim (pre ++ [OOVEvent.contrib w nv]) w =
      vecAdd (evSum dim pre w) nv := by
  simp [evSum, evContribs_append, evContribs, List.foldl_append]

theorem evContribs_append_ensure (pre : List OOVEvent) (w x : String) :
    evContribs (pre ++ [OOVEvent.ensure w]) x = evContribs pre x := by
  simp [evContribs_append, evContribs]

theorem evContribs_append_contrib_ne (pre : List OOVEvent) (w x : String)
    (nv : Vec) (h : w ≠ x) :
    evContribs (pre ++ [OOVEvent.contrib w nv]) x = evContribs pre x := by
  simp [evContribs_append, evContribs, h]

theorem evSum_append_ensure (dim : ℕ) (pre : List OOVEvent) (w x : String) :
    evSum dim (pre ++ [OOVEvent.ensure w]) x = evSum dim pre x := by
  simp [evSum, evContribs_append, evContribs]

theorem evSum_append_contrib_ne (dim : ℕ) (pre : List OOVEvent) (w x : String)
    (nv : Vec) (h : w ≠ x) :
    evSum dim (pre ++ [OOVEvent.contrib w nv]) x = evSum dim pre x := by
  simp [evSum, evContribs_append, evContribs, h]

theorem ensure_mem_touched (evs : List OOVEvent) (w : String)
    (h : OOVEvent.ensure w ∈ evs) : evTouched evs w = true := by
  simp only [evTouched, List.any_eq_true]
  exact ⟨_, h, by simp [eventWord]⟩

theorem touched_of_contribs_ne_nil (evs : List OOVEvent) (w : String)
    (h : evContribs evs w ≠ []) : evTouched evs w = true := by
  obtain ⟨v, hv⟩ := List.exists_mem_of_ne_nil _ h
  obtain ⟨e, he, hfe⟩ := List.mem_filterMap.mp hv
  simp only [evTouched, List.any_eq_true]
  refine ⟨e, he, ?_⟩
  cases e with
  | ensure w' => simp at hfe
  | contrib w' nv =>
    by_cases hw : w' = w
    · simp [eventWord, hw]
    · simp [hw] at hfe

/-! ### Well-formed event lists

Every `contrib w _` event generated by the code is preceded by an
`ensure w` event (the running sum is initialized before any neighbor is
added).  `wfEvents evs ens` says this holds for `evs` when the words
satisfying `ens` are already initialized. -/

def wfEvents : List OOVEvent → (String → Prop) → Prop
  | [], _ => True
  | .ensure w :: rest, ens => wfEvents rest (fun x => x = w ∨ ens x)
  | .contrib w _ :: rest, ens => ens w ∧ wfEvents rest ens

theorem wfEvents_congr (l : List OOVEvent) :
    ∀ (P Q : String → Prop), (∀ x, P x ↔ Q x) → wfEvents l P → wfEvents l Q := by
  induction l with
  | nil => intro P Q _ _; trivial
  | cons e rest ih =>
    intro P Q hPQ h
    cases e with
    | ensure w =>
      exact ih _ _ (fun x => by rw [hPQ x]) h
    | contrib w nv =>
      exact ⟨(hPQ w).mp h.1, ih _ _ hPQ h.2⟩

theorem wfEvents_append_of_forall (b : List OOVEvent)
    (hb : ∀ ens, wfEvents b ens) :
    ∀ (a : List OOVEvent) (ens : String → Prop),
      wfEvents a ens → wfEvents (a ++ b) ens := by
  intro a
  induction a with
  | nil => intro ens _; simpa using hb ens
  | cons e rest ih =>
    intro ens h
    cases e with
    | ensure w => exact ih _ h
    | contrib w nv => exact ⟨h.1, ih _ h.2⟩

theorem wfEvents_contrib_map (w : String) (l : List Vec)
    (ens : String → Prop) (hw : ens w) :
    wfEvents (l.map (OOVEvent.contrib w ·)) ens := by
  induction l with
  | nil => trivial
  | cons v rest ih => exact ⟨hw, ih⟩

theorem wf_tokenEvents (emb : Embeds) (cfg : Config) (sentence : List String)
    (i : ℕ) (w : String) (ens : String → Prop) :
    wfEvents (tokenEvents emb cfg sentence i w) ens := by
  rw [tokenEvents]
  split
  · trivial
  · exact wfEvents_contrib_map w _ _ (Or.inl rfl)

theorem wf_flatMap {α : Type} (f : α → List OOVEvent)
    (hf : ∀ a ens, wfEvents (f a) ens) :
    ∀ (l : List α) (ens : String → Prop), wfEvents (l.flatMap f) ens := by
  intro l
  induction l with
  | nil => intro ens; trivial
  | cons a rest ih =>
    intro ens
    rw [List.flatMap_cons]
    exact wfEvents_append_of_forall _ (fun e => ih e) _ _ (hf a ens)

theorem wf_sentenceEvents (emb : Embeds) (cfg : Config)
    (sentence : List String) (ens : String → Prop) :
    wfEvents (sentenceEvents emb cfg sentence) ens :=
  wf_flatMap _ (fun p ens' => wf_tokenEvents emb cfg sentence p.1 p.2 ens')
    sentence.enum ens

theorem wf_corpusEvents (emb : Embeds) (cfg : Config)
    (sentences : List (List String)) (ens : String → Prop) :
    wfEvents (corpusEvents emb cfg sentences) ens :=
  wf_flatMap _ (fun s ens' => wf_sentenceEvents emb cfg s ens') sentences ens

/-! ### The accumulator invariant -/

/-- After processing an event list from the empty accumulators:
`unseen_word_dict` holds exactly the touched words, each mapped to its
running sum, and `unseen_word_count_dict` holds exactly the words with at
least one contribution, each mapped to its number of contributions. -/
def stateMatches (dim : ℕ) (evs : List OOVEvent) (st : OOVState) : Prop :=
  (∀ w, alistLookup st.unseen w =
      if evTouched evs w then some (evSum dim evs w) else none) ∧
  (∀ w, st.counts w =
      if (evContribs evs w).length = 0 then none
      else some ((evContribs evs w).length))

theorem applyEvent_step (dim : ℕ) (pre : List OOVEvent) (st : OOVState)
    (e : OOVEvent) (h : stateMatches dim pre st)
    (he : ∀ w nv, e = OOVEvent.contrib w nv → OOVEvent.ensure w ∈ pre) :
    stateMatches dim (pre ++ [e]) (applyEvent dim st e) := by
  obtain ⟨hU, hC⟩ := h
  cases e with
  | ensure w =>
    have hcontribs : ∀ x, evContribs (pre ++ [OOVEvent.ensure w]) x =
        evContribs pre x := fun x => evContribs_append_ensure pre w x
    have hmem : alistMem st.unseen w = evTouched pre w := by
      rw [alistMem, hU w]
      cases evTouched pre w <;> simp
    rw [applyEvent]
    cases ht : evTouched pre w with
    | true =>
      rw [hmem, ht, if_pos rfl]
      constructor
      · intro x
        rw [hU x, evTouched_append, evSum_append_ensure]
        by_cases hx : x = w
        · subst hx; simp [ht]
        · have : evTouched [OOVEvent.ensure w] x = false := by
            simp [evTouched, eventWord, Ne.symm hx]
          simp [this]
      · intro x
        rw [hC x, hcontribs x]
    | false =>
      rw [hmem, ht, if_neg (by simp)]
      constructor
      · intro x
        by_cases hx : x = w
        · subst hx
          have hnone : alistLookup st.unseen x = none := by
            rw [hU x, ht, if_neg (by simp)]
          rw [alistLookup_append_right st.unseen x (zerosVec dim) x hnone,
            if_pos rfl]
          have htt : evTouched (pre ++ [OOVEvent.ensure x]) x = true := by
            rw [evTouched_append]
            simp [evTouched, eventWord]
          rw [htt, if_pos rfl, evSum_append_ensure]
          have hnil : evContribs pre x = [] := by
            by_contra hne
            rw [touched_of_contribs_ne_nil pre x hne] at ht
            exact Bool.noConfusion ht
          simp [evSum, hnil]
        · rw [alistLookup_append_left st.unseen w (zerosVec dim) x hx, hU x,
            evTouched_append, evSum_append_ensure]
          have : evTouched [OOVEvent.ensure w] x = false := by
            simp [evTouched, eventWord, Ne.symm hx]
          simp [this]
      · intro x
        rw [hC x, hcontribs x]
  | contrib w nv =>
    have hensure : OOVEvent.ensure w ∈ pre := he w nv rfl
    have ht : evTouched pre w = true := ensure_mem_touched pre w hensure
    have hlook : alistLookup st.unseen w = some (evSum dim pre w) := by
      rw [hU w, ht, if_pos rfl]
    rw [applyEvent]
    constructor
    · intro x
      rw [alistLookup_update]
      by_cases hx : x = w
      · subst hx
        rw [if_pos rfl, hlook]
        have htt : evTouched (pre ++ [OOVEvent.contrib x nv]) x = true := by
          rw [evTouched_append, ht]; simp
        rw [htt, if_pos rfl, evSum_append_contrib]
        simp
      · rw [if_neg hx, hU x, evTouched_append,
          evSum_append_contrib_ne dim pre w x nv (Ne.symm hx)]
        have h1 : evTouched [OOVEvent.contrib w nv] x = false := by
          simp [evTouched, eventWord, Ne.symm hx]
        simp [h1]
    · intro x
      by_cases hx : x = w
      · subst hx
        have hcx : evContribs (pre ++ [OOVEvent.contrib x nv]) x =
            evContribs pre x ++ [nv] := by
          simp [evContribs_append, evContribs]
        simp only [if_pos rfl, hC x, hcx, List.length_append, List.length_cons,
          List.length_nil]
        cases hnil : (evContribs pre x).length with
        | zero => simp
        | succ n => simp
      · have h2 := evContribs_append_contrib_ne pre w x nv (Ne.symm hx)
        simp only [hx, if_false, hC x, h2]

theorem foldl_applyEvent_spec (dim : ℕ) :
    ∀ (evs pre : List OOVEvent) (st : OOVState),
      wfEvents evs (fun x => OOVEvent.ensure x ∈ pre) →
      stateMatches dim pre st →
      stateMatches dim (pre ++ evs) (evs.foldl (applyEvent dim) st) := by
  intro evs
  induction evs with
  | nil => intro pre st _ h; simpa using h
  | cons e rest ih =>
    intro pre st hwf h
    have hstep : stateMatches dim (pre ++ [e]) (applyEvent dim st e) := by
      refine applyEvent_step dim pre st e h ?_
      intro w nv hew
      subst hew
      exact hwf.1
    have hwf' : wfEvents rest (fun x => OOVEvent.ensure x ∈ pre ++ [e]) := by
      cases e with
      | ensure w =>
        refine wfEvents_congr rest _ _ (fun x => ?_) hwf
        simp [List.mem_append, or_comm]
      | contrib w nv =>
        refine wfEvents_congr rest _ _ (fun x => ?_) hwf.2
        simp [List.mem_append]
    have := ih (pre ++ [e]) (applyEvent dim st e) hwf' hstep
    simpa [List.append_assoc] using this

theorem stateMatches_initState (dim : ℕ) : stateMatches dim [] initState := by
  constructor
  · intro w; simp [initState, alistLookup, evTouched]
  · intro w; simp [initState, evContribs]

/-- The accumulator state after processing a sentence list from the empty
state is exactly described by the corpus event list. -/
theorem corpus_state_spec (emb : Embeds) (cfg : Config)
    (sentences : List (List String)) :
    stateMatches cfg.embedding_dim (corpusEvents emb cfg sentences)
      (sentences.foldl (approximate_unseen emb cfg) initState) := by
  rw [fold_approximate_eq]
  have := foldl_applyEvent_spec cfg.embedding_dim
    (corpusEvents emb cfg sentences) [] initState
    (wf_corpusEvents emb cfg sentences _)
    (stateMatches_initState cfg.embedding_dim)
  simpa using this

/-! ### Keys of the unseen-word accumulator -/

theorem applyEvent_keys_nodup (dim : ℕ) (st : OOVState) (e : OOVEvent)
    (h : (alistKeys st.unseen).Nodup) :
    (alistKeys (applyEvent dim st e).unseen).Nodup := by
  cases e with
  | ensure w =>
    rw [applyEvent]
    cases hm : alistMem st.unseen w with
    | true => simpa [hm] using h
    | false =>
      have hnot : w ∉ alistKeys st.unseen := by
        rw [← alistLookup_isSome_iff]
        simp only [alistMem] at hm
        simp [hm]
      simp [hm, alistKeys, List.map_append, List.nodup_append]
      exact ⟨h, by simpa [alistKeys] using hnot⟩
  | contrib w nv => exact alistKeys_update_nodup _ _ _ h

theorem applyEvent_keys_sub (dim : ℕ) (st : OOVState) (e : OOVEvent)
    (x : String) (h : x ∈ alistKeys (applyEvent dim st e).unseen) :
    x ∈ alistKeys st.unseen ∨ x = eventWord e := by
  cases e with
  | ensure w =>
    rw [applyEvent] at h
    cases hm : alistMem st.unseen w with
    | true => rw [hm] at h; exact Or.inl (by simpa using h)
    | false =>
      rw [hm] at h
      simp only [Bool.false_eq_true, if_false, alistKeys, List.map_append] at h
      rcases List.mem_append.mp h with h1 | h1
      · exact Or.inl h1
      · simp only [eventWord]
        simp at h1
        exact Or.inr h1
  | contrib w nv =>
    rw [applyEvent] at h
    simp only [alistKeys] at h ⊢
    rw [show (List.map Prod.fst (alistUpdate st.unseen w
        (vecAdd ((alistLookup st.unseen w).getD []) nv))) =
        alistKeys (alistUpdate st.unseen w
        (vecAdd ((alistLookup st.unseen w).getD []) nv)) from rfl,
      alistKeys_update] at h
    by_cases hm : w ∈ alistKeys st.unseen
    · rw [if_pos hm] at h; exact Or.inl h
    · rw [if_neg hm] at h
      rcases List.mem_append.mp h with h1 | h1
      · exact Or.inl h1
      · exact Or.inr (by simpa [eventWord] using h1)

theorem foldl_applyEvent_keys_nodup (dim : ℕ) :
    ∀ (evs : List OOVEvent) (st : OOVState),
      (alistKeys st.unseen).Nodup →
      (alistKeys ((evs.foldl (applyEvent dim) st).unseen)).Nodup := by
  intro evs
  induction evs with
  | nil => intro st h; exact h
  | cons e rest ih =>
    intro st h
    exact ih _ (applyEvent_keys_nodup dim st e h)

theorem foldl_applyEvent_keys_sub (dim : ℕ) :
    ∀ (evs : List OOVEvent) (st : OOVState) (x : String),
      x ∈ alistKeys ((evs.foldl (applyEvent dim) st).unseen) →
      x ∈ alistKeys st.unseen ∨ ∃ e ∈ evs, eventWord e = x := by
  intro evs
  induction evs with
  | nil => intro st x h; exact Or.inl h
  | cons e rest ih =>
    intro st x h
    rcases ih _ x h with h1 | h1
    · rcases applyEvent_keys_sub dim st e x h1 with h2 | h2
      · exact Or.inl h2
      · exact Or.inr ⟨e, List.mem_cons_self e rest, h2.symm⟩
    · obtain ⟨e', he', hw⟩ := h1
      exact Or.inr ⟨e', List.mem_cons_of_mem e he', hw⟩

/-- Every event generated for a sentence concerns a token absent from the
pretrained table. -/
theorem sentenceEvents_word_oov (emb : Embeds) (cfg : Config)
    (sentence : List String) (e : OOVEvent)
    (h : e ∈ sentenceEvents emb cfg sentence) : emb (eventWord e) = none := by
  obtain ⟨p, _, hpe⟩ := List.mem_flatMap.mp h
  rw [tokenEvents] at hpe
  by_cases hw : (emb p.2).isSome
  · rw [if_pos hw] at hpe; simp at hpe
  · rw [if_neg hw] at hpe
    have hnone : emb p.2 = none := Option.not_isSome_iff_eq_none.mp hw
    rcases List.mem_cons.mp hpe with h1 | h1
    · subst h1; simpa [eventWord] using hnone
    · obtain ⟨v, _, hv⟩ := List.mem_map.mp h1
      subst hv; simpa [eventWord] using hnone

theorem corpusEvents_word_oov (emb : Embeds) (cfg : Config)
    (sentences : List (List String)) (e : OOVEvent)
    (h : e ∈ corpusEvents emb cfg sentences) : emb (eventWord e) = none := by
  obtain ⟨s, _, hse⟩ := List.mem_flatMap.mp h
  exact sentenceEvents_word_oov emb cfg s e hse

/-- Keys of the accumulator built from the whole corpus: no duplicates. -/
theorem corpus_keys_nodup (emb : Embeds) (cfg : Config)
    (sentences : List (List String)) :
    (alistKeys ((sentences.foldl (approximate_unseen emb cfg)
      initState).unseen)).Nodup := by
  rw [fold_approximate_eq]
  exact foldl_applyEvent_keys_nodup _ _ initState (by simp [initState, alistKeys])

/-- Every key of the accumulator built from the whole corpus is absent from
the pretrained table. -/
theorem corpus_keys_oov (emb : Embeds) (cfg : Config)
    (sentences : List (List String)) (x : String)
    (h : x ∈ alistKeys ((sentences.foldl (approximate_unseen emb cfg)
      initState).unseen)) : emb x = none := by
  rw [fold_approximate_eq] at h
  rcases foldl_applyEvent_keys_sub _ _ initState x h with h1 | h1
  · simp [initState, alistKeys] at h1
  · obtain ⟨e, he, hw⟩ := h1
    rw [← hw]
    exact corpusEvents_word_oov emb cfg sentences e he

/-! ### Characterization of the file scans -/

/-- Formalization of the claimed per-record behavior (claim C4): the header
line at position 0 is skipped unconditionally, a record whose label column is
`-` is dropped, and a record with a recognized label becomes the triple of
bracket-stripped premise tokens, bracket-stripped hypothesis tokens, and the
integer label `entailment = 0`, `contradiction = 1`, `neutral = 2`. -/
def recordOf (p : ℕ × String) : Option Example :=
  if p.1 = 0 then none
  else
    let cols := lineCols p.2
    if cols.getD 0 "" = "-" then none
    else
      match label_dict (cols.getD 0 "") with
      | some y =>
        some (sentTokens (cols.getD 1 ""), sentTokens (cols.getD 2 ""), y)
      | none => none

/-- The tokens one record contributes to the word set: both sentence columns
of any non-header record not labelled `-` (the word-set pass ignores the
label value). -/
def recordTokens (p : ℕ × String) : List String :=
  if p.1 = 0 then []
  else
    let cols := lineCols p.2
    if cols.getD 0 "" = "-" then []
    else sentTokens (cols.getD 1 "") ++ sentTokens (cols.getD 2 "")

/-- The sentences of a list of examples in processing order: premise then
hypothesis of each example. -/
def exampleSentences (exs : List Example) : List (List String) :=
  exs.flatMap (fun e => [e.1, e.2.1])

theorem load_ok_spec (emb : Embeds) (cfg : Config) :
    ∀ (lines : List String) (idx : ℕ) (acc : List Example) (st : OOVState)
      (exs : List Example) (st' : OOVState),
      load emb cfg idx lines acc st = .ok (exs, st') →
      exs = acc ++ (List.enumFrom idx lines).filterMap recordOf ∧
      st' = (exampleSentences
          ((List.enumFrom idx lines).filterMap recordOf)).foldl
        (approximate_unseen emb cfg) st := by
  intro lines
  induction lines with
  | nil =>
    intro idx acc st exs st' h
    simp only [load, Except.ok.injEq, Prod.mk.injEq] at h
    obtain ⟨rfl, rfl⟩ := h
    simp [List.enumFrom, exampleSentences]
  | cons line rest ih =>
    intro idx acc st exs st' h
    by_cases h0 : idx = 0
    · subst h0
      simp only [load, if_pos rfl] at h
      obtain ⟨he, hs⟩ := ih 1 acc st exs st' h
      have hnone : recordOf (0, line) = none := by simp [recordOf]
      refine ⟨?_, ?_⟩
      · rw [he]
        simp [List.enumFrom, List.filterMap_cons, hnone]
      · rw [hs]
        simp [List.enumFrom, List.filterMap_cons, hnone]
    · by_cases hdash : (lineCols line).getD 0 "" = "-"
      · simp only [load, h0, if_false, hdash, if_true] at h
        obtain ⟨he, hs⟩ := ih (idx + 1) acc st exs st' h
        have hnone : recordOf (idx, line) = none := by
          unfold recordOf
          dsimp only
          rw [if_neg h0, if_pos hdash]
        refine ⟨?_, ?_⟩
        · rw [he]
          simp [List.enumFrom, List.filterMap_cons, hnone]
        · rw [hs]
          simp [List.enumFrom, List.filterMap_cons, hnone]
      · by_cases hlen : (lineCols line).length < 3
        · simp only [load, h0, if_false, hdash, hlen, if_true] at h
          exact Except.noConfusion h
        · cases hlab : label_dict ((lineCols line).getD 0 "") with
          | none =>
            simp only [load, h0, if_false, hdash, hlen, hlab, if_true] at h
            exact Except.noConfusion h
          | some y =>
            simp only [load, h0, if_false, hdash, hlen, hlab, if_true] at h
            obtain ⟨he, hs⟩ := ih (idx + 1) _ _ exs st' h
            have hrec : recordOf (idx, line) =
                some (sentTokens ((lineCols line).getD 1 ""),
                  sentTokens ((lineCols line).getD 2 ""), y) := by
              unfold recordOf
              dsimp only
              rw [if_neg h0, if_neg hdash, hlab]
            refine ⟨?_, ?_⟩
            · rw [he]
              simp [List.enumFrom, List.filterMap_cons, hrec]
            · rw [hs]
              simp [List.enumFrom, List.filterMap_cons, hrec, exampleSentences]

theorem update_dict_ok_spec :
    ∀ (lines : List String) (idx : ℕ) (acc ws : List String),
      update_dict idx lines acc = .ok ws →
      ws = acc ++ (List.enumFrom idx lines).flatMap recordTokens := by
  intro lines
  induction lines with
  | nil =>
    intro idx acc ws h
    simp only [update_dict, Except.ok.injEq] at h
    subst h
    simp [List.enumFrom]
  | cons line rest ih =>
    intro idx acc ws h
    by_cases h0 : idx = 0
    · subst h0
      simp only [update_dict, if_pos rfl] at h
      have hnil : recordTokens (0, line) = [] := by simp [recordTokens]
      rw [ih 1 acc ws h]
      simp [List.enumFrom, List.flatMap_cons, hnil]
    · by_cases hdash : (lineCols line).getD 0 "" = "-"
      · simp only [update_dict, h0, if_false, hdash, if_true] at h
        have hnil : recordTokens (idx, line) = [] := by
          unfold recordTokens
          dsimp only
          rw [if_neg h0, if_pos hdash]
        rw [ih (idx + 1) acc ws h]
        simp [List.enumFrom, List.flatMap_cons, hnil]
      · by_cases hlen : (lineCols line).length < 3
        · simp only [update_dict, h0, if_false, hdash, hlen, if_true] at h
          exact Except.noConfusion h
        · simp only [update_dict, h0, if_false, hdash, hlen, if_true] at h
          have htok : recordTokens (idx, line) =
              sentTokens ((lineCols line).getD 1 "") ++
                sentTokens ((lineCols line).getD 2 "") := by
            unfold recordTokens
            dsimp only
            rw [if_neg h0, if_neg hdash]
          rw [ih (idx + 1) _ ws h]
          simp [List.enumFrom, List.flatMap_cons, htok]

theorem get_glove_domain (pf : String → Option ℚ) (ws : List String) :
    ∀ (lines : List String) (acc emb : Embeds),
      get_glove pf ws lines acc = .ok emb →
      ∀ x, (emb x).isSome ↔
        ((acc x).isSome ∨
          (x ∈ ws ∧ ∃ line ∈ lines, (splitStr ' ' line).getD 0 "" = x)) := by
  intro lines
  induction lines with
  | nil =>
    intro acc emb h x
    simp only [get_glove, Except.ok.injEq] at h
    subst h
    simp
  | cons line rest ih =>
    intro acc emb h x
    by_cases hmem : (splitStr ' ' line).getD 0 "" ∈ ws
    · simp only [get_glove, hmem, if_true] at h
      cases hparse : (splitStr ' ' line).tail.mapM pf with
      | none => rw [hparse] at h; exact Except.noConfusion h
      | some v =>
        rw [hparse] at h
        rw [ih _ emb h x]
        constructor
        · rintro (h1 | ⟨h1, l', hl', hw⟩)
          · by_cases hx : x = (splitStr ' ' line).getD 0 ""
            · exact Or.inr ⟨by rw [hx]; exact hmem, line,
                List.mem_cons_self line rest, hx.symm⟩
            · rw [if_neg hx] at h1
              exact Or.inl h1
          · exact Or.inr ⟨h1, l', List.mem_cons_of_mem line hl', hw⟩
        · rintro (h1 | ⟨h1, l', hl', hw⟩)
          · by_cases hx : x = (splitStr ' ' line).getD 0 ""
            · rw [if_pos hx]
              exact Or.inl rfl
            · rw [if_neg hx]
              exact Or.inl h1
          · rcases List.mem_cons.mp hl' with rfl | hl''
            · rw [if_pos hw.symm]
              exact Or.inl rfl
            · exact Or.inr ⟨h1, l', hl'', hw⟩
    · simp only [get_glove, hmem, if_false] at h
      rw [ih acc emb h x]
      constructor
      · rintro (h1 | ⟨h1, l', hl', hw⟩)
        · exact Or.inl h1
        · exact Or.inr ⟨h1, l', List.mem_cons_of_mem line hl', hw⟩
      · rintro (h1 | ⟨h1, l', hl', hw⟩)
        · exact Or.inl h1
        · rcases List.mem_cons.mp hl' with rfl | hl''
          · exact absurd (hw ▸ h1) hmem
          · exact Or.inr ⟨h1, l', hl'', hw⟩

theorem get_glove_values (pf : String → Option ℚ) (ws : List String) :
    ∀ (lines : List String) (acc emb : Embeds),
      get_glove pf ws lines acc = .ok emb →
      ∀ x v, emb x = some v →
        (x ∈ ws ∧ ∃ line ∈ lines, (splitStr ' ' line).getD 0 "" = x ∧
          (splitStr ' ' line).tail.mapM pf = some v) ∨ acc x = some v := by
  intro lines
  induction lines with
  | nil =>
    intro acc emb h x v hx
    simp only [get_glove, Except.ok.injEq] at h
    subst h
    exact Or.inr hx
  | cons line rest ih =>
    intro acc emb h x v hx
    by_cases hmem : (splitStr ' ' line).getD 0 "" ∈ ws
    · simp only [get_glove, hmem, if_true] at h
      cases hparse : (splitStr ' ' line).tail.mapM pf with
      | none => rw [hparse] at h; exact Except.noConfusion h
      | some u =>
        rw [hparse] at h
        rcases ih _ emb h x v hx with ⟨h1, l', hl', hw, hp⟩ | hacc
        · exact Or.inl ⟨h1, l', List.mem_cons_of_mem line hl', hw, hp⟩
        · by_cases hxw : x = (splitStr ' ' line).getD 0 ""
          · rw [if_pos hxw] at hacc
            injection hacc with hacc
            subst hacc
            exact Or.inl ⟨hxw ▸ hmem, line, List.mem_cons_self line rest,
              hxw.symm, hparse⟩
          · rw [if_neg hxw] at hacc
            exact Or.inr hacc
    · simp only [get_glove, hmem, if_false] at h
      rcases ih acc emb h x v hx with ⟨h1, l', hl', hw, hp⟩ | hacc
      · exact Or.inl ⟨h1, l', List.mem_cons_of_mem line hl', hw, hp⟩
      · exact Or.inr hacc

theorem mapM_option_congr {α β : Type} (f g : α → Option β) :
    ∀ (l : List α), (∀ a ∈ l, f a = g a) → l.mapM f = l.mapM g := by
  intro l
  induction l with
  | nil => intro _; rfl
  | cons a rest ih =>
    intro h
    rw [List.mapM_cons, List.mapM_cons, h a (List.mem_cons_self a rest),
      ih (fun b hb => h b (List.mem_cons_of_mem a hb))]

/-- A line whose first word is not a vocabulary member is discarded without
its vector fields being parsed: the scan's result does not depend on the
parse function's behavior on discarded lines. -/
theorem get_glove_parse_indep (ws : List String) :
    ∀ (lines : List String) (pf pf2 : String → Option ℚ) (acc : Embeds),
      (∀ line ∈ lines, (splitStr ' ' line).getD 0 "" ∈ ws →
        ∀ f ∈ (splitStr ' ' line).tail, pf f = pf2 f) →
      get_glove pf ws lines acc = get_glove pf2 ws lines acc := by
  intro lines
  induction lines with
  | nil => intro pf pf2 acc _; rfl
  | cons line rest ih =>
    intro pf pf2 acc hagree
    by_cases hmem : (splitStr ' ' line).getD 0 "" ∈ ws
    · have hmap : (splitStr ' ' line).tail.mapM pf =
          (splitStr ' ' line).tail.mapM pf2 :=
        mapM_option_congr pf pf2 _
          (hagree line (List.mem_cons_self line rest) hmem)
      simp only [get_glove, hmem, if_true, hmap]
      cases (splitStr ' ' line).tail.mapM pf2 with
      | none => rfl
      | some v =>
        exact ih pf pf2 _
          (fun l' hl' => hagree l' (List.mem_cons_of_mem line hl'))
    · simp only [get_glove, hmem, if_false]
      exact ih pf pf2 acc
        (fun l' hl' => hagree l' (List.mem_cons_of_mem line hl'))

/-! ### The OOV merge -/

theorem mergeUnseen_notmem (counts : String → Option ℕ) :
    ∀ (l : List (String × Vec)) (emb : Embeds) (x : String),
      x ∉ alistKeys l → mergeUnseen counts l emb x = emb x := by
  intro l
  induction l with
  | nil => intro emb x _; rfl
  | cons p rest ih =>
    obtain ⟨w, v⟩ := p
    intro emb x hx
    have hxw : x ≠ w := by
      intro hh; exact hx (by simp [alistKeys, hh])
    have hxrest : x ∉ alistKeys rest := by
      intro hh; exact hx (by simp [alistKeys] at hh ⊢; exact Or.inr hh)
    cases hc : counts w with
    | some c =>
      simp only [mergeUnseen, hc]
      rw [ih _ x hxrest]
      simp [hxw]
    | none =>
      simp only [mergeUnseen, hc]
      exact ih emb x hxrest

theorem mergeUnseen_counts_none (counts : String → Option ℕ) :
    ∀ (l : List (String × Vec)) (emb : Embeds) (x : String),
      counts x = none → mergeUnseen counts l emb x = emb x := by
  intro l
  induction l with
  | nil => intro emb x _; rfl
  | cons p rest ih =>
    obtain ⟨w, v⟩ := p
    intro emb x hx
    cases hc : counts w with
    | some c =>
      have hxw : x ≠ w := by
        intro hh; rw [hh, hc] at hx; exact Option.noConfusion hx
      simp only [mergeUnseen, hc]
      rw [ih _ x hx]
      simp [hxw]
    | none =>
      simp only [mergeUnseen, hc]
      exact ih emb x hx

theorem mergeUnseen_mem (counts : String → Option ℕ) :
    ∀ (l : List (String × Vec)) (emb : Embeds) (x : String) (v : Vec) (c : ℕ),
      (alistKeys l).Nodup → alistLookup l x = some v → counts x = some c →
      mergeUnseen counts l emb x = some (vecDiv v c) := by
  intro l
  induction l with
  | nil => intro emb x v c _ hlook _; exact Option.noConfusion hlook
  | cons p rest ih =>
    obtain ⟨w, u⟩ := p
    intro emb x v c hnodup hlook hc
    have hnd : w ∉ alistKeys rest ∧ (alistKeys rest).Nodup := by
      simpa [alistKeys] using hnodup
    by_cases hx : x = w
    · subst hx
      have hv : u = v := by
        simpa [alistLookup] using hlook
      subst hv
      simp only [mergeUnseen, hc]
      rw [mergeUnseen_notmem counts rest _ x hnd.1]
      simp
    · have hlook' : alistLookup rest x = some v := by
        simpa [alistLookup, hx] using hlook
      cases hcw : counts w with
      | some c' =>
        simp only [mergeUnseen, hcw]
        exact ih _ x v c hnd.2 hlook' hc
      | none =>
        simp only [mergeUnseen, hcw]
        exact ih emb x v c hnd.2 hlook' hc

theorem finalizeUnseen_keys (counts : String → Option ℕ) :
    ∀ (l : List (String × Vec)),
      alistKeys (finalizeUnseen counts l) = alistKeys l := by
  intro l
  induction l with
  | nil => rfl
  | cons p rest ih =>
    obtain ⟨w, v⟩ := p
    cases hc : counts w <;>
      simp only [finalizeUnseen, List.map_cons, alistKeys, hc] at ih ⊢ <;>
      simp [ih, alistKeys]

/-! ### Claim-side description of the accumulated contributions -/

/-- Formalization of the claimed contribution enumeration (claim C1) for one
sentence: for each position `i` holding an occurrence of `w` and each offset
`r` in `[-window_size, window_size]` with `r ≠ 0`, `0 ≤ i + r <` the sentence
length, and the token at `i + r` in the pretrained table, one contribution of
that neighbor's pretrained vector. -/
def occContribs (emb : Embeds) (wsz : ℕ) (s : List String) (w : String) :
    List Vec :=
  s.enum.flatMap (fun p => if p.2 = w then contribsAt emb wsz s p.1 else [])

/-- All contributions to `w` across a list of sentences, in processing
order. -/
def corpusContribs (emb : Embeds) (wsz : ℕ) (sentences : List (List String))
    (w : String) : List Vec :=
  sentences.flatMap (fun s => occContribs emb wsz s w)

/-- The premise and hypothesis sentences of every example of the three
materialized partitions, in processing order. -/
def allSentences (r : PipelineResult) : List (List String) :=
  exampleSentences r.train ++ exampleSentences r.valid ++ exampleSentences r.test

theorem evContribs_contrib_map_self (w : String) (l : List Vec) :
    evContribs (l.map (OOVEvent.contrib w ·)) w = l := by
  induction l with
  | nil => rfl
  | cons v rest ih =>
    simp only [List.map_cons, evContribs, List.filterMap_cons] at ih ⊢
    simp [ih]

theorem evContribs_contrib_map_ne (t w : String) (h : t ≠ w) (l : List Vec) :
    evContribs (l.map (OOVEvent.contrib t ·)) w = [] := by
  induction l with
  | nil => rfl
  | cons v rest ih =>
    simp only [List.map_cons, evContribs, List.filterMap_cons] at ih ⊢
    simp [ih, h]

theorem evContribs_flatMap {α : Type} (f : α → List OOVEvent) (w : String) :
    ∀ (l : List α),
      evContribs (l.flatMap f) w = l.flatMap (fun a => evContribs (f a) w) := by
  intro l
  induction l with
  | nil => rfl
  | cons a rest ih =>
    rw [List.flatMap_cons, List.flatMap_cons, ← ih]
    exact evContribs_append _ _ w

theorem evContribs_tokenEvents (emb : Embeds) (cfg : Config)
    (s : List String) (i : ℕ) (t w : String) (hw : emb w = none) :
    evContribs (tokenEvents emb cfg s i t) w =
      if t = w then contribsAt emb cfg.window_size s i else [] := by
  rw [tokenEvents]
  by_cases ht : (emb t).isSome
  · rw [if_pos ht]
    by_cases htw : t = w
    · subst htw
      rw [hw] at ht
      exact absurd ht (by simp)
    · rw [if_neg htw]
      rfl
  · rw [if_neg ht]
    by_cases htw : t = w
    · subst htw
      rw [if_pos rfl]
      show evContribs (OOVEvent.ensure t :: _) t = _
      simp only [evContribs, List.filterMap_cons]
      exact evContribs_contrib_map_self t _
    · rw [if_neg htw]
      show evContribs (OOVEvent.ensure t :: _) w = []
      simp only [evContribs, List.filterMap_cons]
      exact evContribs_contrib_map_ne t w htw _

theorem evContribs_sentenceEvents (emb : Embeds) (cfg : Config)
    (s : List String) (w : String) (hw : emb w = none) :
    evContribs (sentenceEvents emb cfg s) w =
      occContribs emb cfg.window_size s w := by
  rw [sentenceEvents, occContribs, evContribs_flatMap]
  congr 1
  funext p
  exact evContribs_tokenEvents emb cfg s p.1 p.2 w hw

theorem evContribs_corpusEvents (emb : Embeds) (cfg : Config)
    (sentences : List (List String)) (w : String) (hw : emb w = none) :
    evContribs (corpusEvents emb cfg sentences) w =
      corpusContribs emb cfg.window_size sentences w := by
  rw [corpusEvents, corpusContribs, evContribs_flatMap]
  congr 1
  funext s
  exact evContribs_sentenceEvents emb cfg s w hw

/-! ### Destructuring a successful pipeline run -/

theorem pipeline_ok_elim (cfg : Config) (pf : String → Option ℚ)
    (a b c g : List String) (res : PipelineResult)
    (hok : pipeline cfg pf a b c g = .ok res) :
    ∃ tr stA va stB te stC,
      build_word_set a b c = .ok res.wordSet ∧
      get_glove pf res.wordSet g (fun _ => none) = .ok res.gloveEmbeds ∧
      load res.gloveEmbeds cfg 0 a [] initState = .ok (tr, stA) ∧
      load res.gloveEmbeds cfg 0 b [] stA = .ok (va, stB) ∧
      load res.gloveEmbeds cfg 0 c [] stB = .ok (te, stC) ∧
      res.train = tr ∧ res.valid = va ∧ res.test = te ∧
      res.counts = stC.counts ∧
      res.unseen = finalizeUnseen stC.counts stC.unseen ∧
      res.finalEmbeds = mergeUnseen stC.counts stC.unseen res.gloveEmbeds := by
  unfold pipeline at hok
  split at hok
  · exact Except.noConfusion hok
  next ws h1 =>
    split at hok
    · exact Except.noConfusion hok
    next emb h2 =>
      split at hok
      · exact Except.noConfusion hok
      next tr stA h3 =>
        split at hok
        · exact Except.noConfusion hok
        next va stB h4 =>
          split at hok
          · exact Except.noConfusion hok
          next te stC h5 =>
            injection hok with hok
            subst hok
            exact ⟨tr, stA, va, stB, te, stC, h1, h2, h3, h4, h5,
              rfl, rfl, rfl, rfl, rfl, rfl⟩

/-- A successful pipeline run determines a final accumulator state whose
unseen sums and contribution counts are exactly described by the corpus
event list over all premise and hypothesis sentences of the three
partitions. -/
theorem pipeline_final_state (cfg : Config) (pf : String → Option ℚ)
    (a b c g : List String) (res : PipelineResult)
    (hok : pipeline cfg pf a b c g = .ok res) :
    ∃ stC : OOVState,
      res.counts = stC.counts ∧
      res.unseen = finalizeUnseen stC.counts stC.unseen ∧
      res.finalEmbeds = mergeUnseen stC.counts stC.unseen res.gloveEmbeds ∧
      stateMatches cfg.embedding_dim
        (corpusEvents res.gloveEmbeds cfg (allSentences res)) stC ∧
      (alistKeys stC.unseen).Nodup ∧
      (∀ x, x ∈ alistKeys stC.unseen → res.gloveEmbeds x = none) := by
  obtain ⟨tr, stA, va, stB, te, stC, h1, h2, h3, h4, h5, htr, hva, hte,
    hcounts, hunseen, hfinal⟩ := pipeline_ok_elim cfg pf a b c g res hok
  obtain ⟨htrEq, hstA⟩ := load_ok_spec res.gloveEmbeds cfg a 0 [] initState tr stA h3
  obtain ⟨hvaEq, hstB⟩ := load_ok_spec res.gloveEmbeds cfg b 0 [] stA va stB h4
  obtain ⟨hteEq, hstC⟩ := load_ok_spec res.gloveEmbeds cfg c 0 [] stB te stC h5
  rw [List.nil_append] at htrEq hvaEq hteEq
  have hall : allSentences res =
      exampleSentences tr ++ exampleSentences va ++ exampleSentences te := by
    rw [allSentences, htr, hva, hte]
  have hstC2 : stC = (allSentences res).foldl
      (approximate_unseen res.gloveEmbeds cfg) initState := by
    rw [hall, List.foldl_append, List.foldl_append, htrEq, ← hstA, hvaEq,
      ← hstB, hteEq, ← hstC]
  refine ⟨stC, hcounts, hunseen, hfinal, ?_, ?_, ?_⟩
  · rw [hstC2]
    exact corpus_state_spec res.gloveEmbeds cfg (allSentences res)
  · rw [hstC2]
    exact corpus_keys_nodup res.gloveEmbeds cfg (allSentences res)
  · intro x hx
    rw [hstC2] at hx
    exact corpus_keys_oov res.gloveEmbeds cfg (allSentences res) x hx

/-- An out-of-vocabulary token occurring in a sentence generates its
`ensure` event in that sentence's event list. -/
theorem ensure_mem_sentenceEvents (emb : Embeds) (cfg : Config)
    (s : List String) (w : String) (hw : w ∈ s) (hoov : emb w = none) :
    OOVEvent.ensure w ∈ sentenceEvents emb cfg s := by
  obtain ⟨n, hn⟩ := List.mem_iff_get.mp hw
  have hp : (n.val, w) ∈ s.enum := by
    rw [List.mem_enum_iff_getElem?]
    simpa [List.getElem?_eq_getElem n.isLt, List.get_eq_getElem] using hn
  refine List.mem_flatMap.mpr ⟨(n.val, w), hp, ?_⟩
  rw [tokenEvents, if_neg (by simp [hoov])]
  exact List.mem_cons_self _ _

theorem occurrence_touched (emb : Embeds) (cfg : Config)
    (sentences : List (List String)) (s : List String) (w : String)
    (hs : s ∈ sentences) (hw : w ∈ s) (hoov : emb w = none) :
    evTouched (corpusEvents emb cfg sentences) w = true :=
  ensure_mem_touched _ w
    (List.mem_flatMap.mpr ⟨s, hs, ensure_mem_sentenceEvents emb cfg s w hw hoov⟩)

theorem touched_exists_word (evs : List OOVEvent) (w : String)
    (h : evTouched evs w = true) : ∃ e ∈ evs, eventWord e = w := by
  obtain ⟨e, he, hw⟩ := List.any_eq_true.mp h
  exact ⟨e, he, by simpa using hw⟩

theorem build_word_set_ok_spec (a b c ws : List String)
    (h : build_word_set a b c = .ok ws) :
    ws = (List.enumFrom 0 a).flatMap recordTokens ++
      (List.enumFrom 0 b).flatMap recordTokens ++
      (List.enumFrom 0 c).flatMap recordTokens := by
  unfold build_word_set at h
  split at h
  · exact Except.noConfusion h
  next ws1 h1 =>
    split at h
    · exact Except.noConfusion h
    next ws2 h2 =>
      have e1 := update_dict_ok_spec a 0 [] ws1 h1
      have e2 := update_dict_ok_spec b 0 ws1 ws2 h2
      have e3 := update_dict_ok_spec c 0 ws2 ws h
      rw [List.nil_append] at e1
      rw [e3, e2, e1]

theorem recordOf_tokens (p : ℕ × String) (ex : Example)
    (h : recordOf p = some ex) : recordTokens p = ex.1 ++ ex.2.1 := by
  unfold recordOf at h
  unfold recordTokens
  dsimp only at h ⊢
  by_cases h0 : p.1 = 0
  · rw [if_pos h0] at h
    exact Option.noConfusion h
  · rw [if_neg h0] at h ⊢
    by_cases hdash : (lineCols p.2).getD 0 "" = "-"
    · rw [if_pos hdash] at h
      exact Option.noConfusion h
    · rw [if_neg hdash] at h ⊢
      cases hlab : label_dict ((lineCols p.2).getD 0 "") with
      | none => rw [hlab] at h; exact Option.noConfusion h
      | some y =>
        rw [hlab] at h
        injection h with h
        rw [← h]

/-! ### Claim theorems -/

/-- C1: for every OOV token `w` with a nonzero contribution count, after
finalization the embedding table maps `w` to the arithmetic mean — running
vector sum divided by contribution count — of the pretrained vectors of all
its in-window covered neighbors, with one contribution per occurrence of `w`
at position `i` in a premise or hypothesis sentence of any partition and per
offset `r ∈ [-window_size, window_size]`, `r ≠ 0`, `0 ≤ i + r <` sentence
length, neighbor in the pretrained table; OOV neighbors contribute nothing
and contributions accumulate globally across all three partitions. -/
theorem c1_oov_contextual_average (cfg : Config) (pf : String → Option ℚ)
    (a b c g : List String) (res : PipelineResult) (w : String) (cnt : ℕ)
    (hok : pipeline cfg pf a b c g = .ok res)
    (hc : res.counts w = some cnt) :
    res.gloveEmbeds w = none ∧
    cnt = (corpusContribs res.gloveEmbeds cfg.window_size
      (allSentences res) w).length ∧
    res.finalEmbeds w =
      some (vecDiv ((corpusContribs res.gloveEmbeds cfg.window_size
        (allSentences res) w).foldl vecAdd (zerosVec cfg.embedding_dim)) cnt) := by
  obtain ⟨stC, hcounts, hunseen, hfinal, ⟨hU, hC⟩, hnodup, hoovkeys⟩ :=
    pipeline_final_state cfg pf a b c g res hok
  rw [hcounts] at hc
  have hcc := hC w
  rw [hc] at hcc
  by_cases hlen : (evContribs (corpusEvents res.gloveEmbeds cfg
      (allSentences res)) w).length = 0
  · rw [if_pos hlen] at hcc
    exact Option.noConfusion hcc
  · rw [if_neg hlen] at hcc
    injection hcc with hcnt
    have hne : evContribs (corpusEvents res.gloveEmbeds cfg
        (allSentences res)) w ≠ [] := by
      intro hh
      exact hlen (by rw [hh]; rfl)
    have htouch := touched_of_contribs_ne_nil _ w hne
    have hoov : res.gloveEmbeds w = none := by
      obtain ⟨e, he, hew⟩ := touched_exists_word _ w htouch
      rw [← hew]
      exact corpusEvents_word_oov res.gloveEmbeds cfg (allSentences res) e he
    have hcorr := evContribs_corpusEvents res.gloveEmbeds cfg
      (allSentences res) w hoov
    have hlook : alistLookup stC.unseen w =
        some (evSum cfg.embedding_dim
          (corpusEvents res.gloveEmbeds cfg (allSentences res)) w) := by
      rw [hU w, if_pos htouch]
    refine ⟨hoov, ?_, ?_⟩
    · rw [hcnt, hcorr]
    · rw [hfinal, mergeUnseen_mem stC.counts stC.unseen res.gloveEmbeds w _ cnt
        hnodup hlook hc, evSum, hcorr]

/-- C2 (amended): after finalization every OOV token encountered in a
retained record is a key of the unseen-word accumulator, and it has an
embedding-table entry exactly when its contribution count is nonzero; a
zero-contribution OOV token receives NO table entry (the code only prints
the word), rather than the zero vector the original claim asserts. -/
theorem c2_amended_oov_coverage (cfg : Config) (pf : String → Option ℚ)
    (a b c g : List String) (res : PipelineResult) (w : String)
    (hok : pipeline cfg pf a b c g = .ok res)
    (hocc : ∃ ex : Example, (ex ∈ res.train ∨ ex ∈ res.valid ∨ ex ∈ res.test) ∧
      (w ∈ ex.1 ∨ w ∈ ex.2.1))
    (hoov : res.gloveEmbeds w = none) :
    w ∈ alistKeys res.unseen ∧
    ((∃ n, res.counts w = some n) → (res.finalEmbeds w).isSome = true) ∧
    (res.counts w = none → res.finalEmbeds w = none) := by
  obtain ⟨stC, hcounts, hunseen, hfinal, ⟨hU, hC⟩, hnodup, hoovkeys⟩ :=
    pipeline_final_state cfg pf a b c g res hok
  obtain ⟨ex, hex, hwex⟩ := hocc
  have hs1 : ∀ exs : List Example, ex ∈ exs →
      ∃ s ∈ exampleSentences exs, w ∈ s := by
    intro exs hmem
    rcases hwex with h | h
    · exact ⟨ex.1, List.mem_flatMap.mpr ⟨ex, hmem, by simp⟩, h⟩
    · exact ⟨ex.2.1, List.mem_flatMap.mpr ⟨ex, hmem, by simp⟩, h⟩
  have hsent : ∃ s ∈ allSentences res, w ∈ s := by
    rcases hex with h | h | h
    · obtain ⟨s, hs, hws⟩ := hs1 res.train h
      exact ⟨s, by rw [allSentences]; exact List.mem_append.mpr (Or.inl
        (List.mem_append.mpr (Or.inl hs))), hws⟩
    · obtain ⟨s, hs, hws⟩ := hs1 res.valid h
      exact ⟨s, by rw [allSentences]; exact List.mem_append.mpr (Or.inl
        (List.mem_append.mpr (Or.inr hs))), hws⟩
    · obtain ⟨s, hs, hws⟩ := hs1 res.test h
      exact ⟨s, by rw [allSentences]; exact List.mem_append.mpr (Or.inr hs),
        hws⟩
  obtain ⟨s, hsAll, hws⟩ := hsent
  have htouch := occurrence_touched res.gloveEmbeds cfg (allSentences res)
    s w hsAll hws hoov
  have hlook : alistLookup stC.unseen w =
      some (evSum cfg.embedding_dim
        (corpusEvents res.gloveEmbeds cfg (allSentences res)) w) := by
    rw [hU w, if_pos htouch]
  have hkey : w ∈ alistKeys stC.unseen := by
    rw [← alistLookup_isSome_iff, hlook]
    rfl
  refine ⟨?_, ?_, ?_⟩
  · rw [hunseen, finalizeUnseen_keys]
    exact hkey
  · rintro ⟨n, hn⟩
    rw [hcounts] at hn
    rw [hfinal, mergeUnseen_mem stC.counts stC.unseen res.gloveEmbeds w _ n
      hnodup hlook hn]
    rfl
  · intro hn
    rw [hcounts] at hn
    rw [hfinal, mergeUnseen_counts_none stC.counts stC.unseen
      res.gloveEmbeds w hn, hoov]

/-- C3: the OOV merge never modifies a pretrained entry (every pretrained
word keeps its vector), every entry it adds is for a key absent from the
pretrained table, and the unseen-word keys are pairwise distinct, so the
merge writes each OOV token's entry at most once. -/
theorem c3_merge_frame (cfg : Config) (pf : String → Option ℚ)
    (a b c g : List String) (res : PipelineResult)
    (hok : pipeline cfg pf a b c g = .ok res) :
    (∀ w v, res.gloveEmbeds w = some v → res.finalEmbeds w = some v) ∧
    (∀ w, (res.finalEmbeds w).isSome = true →
      (res.gloveEmbeds w).isSome = true ∨
        (w ∈ alistKeys res.unseen ∧ res.gloveEmbeds w = none)) ∧
    (alistKeys res.unseen).Nodup := by
  obtain ⟨stC, hcounts, hunseen, hfinal, ⟨hU, hC⟩, hnodup, hoovkeys⟩ :=
    pipeline_final_state cfg pf a b c g res hok
  refine ⟨?_, ?_, ?_⟩
  · intro w v hv
    have hnk : w ∉ alistKeys stC.unseen := by
      intro hk
      rw [hoovkeys w hk] at hv
      exact Option.noConfusion hv
    rw [hfinal, mergeUnseen_notmem stC.counts stC.unseen res.gloveEmbeds w hnk,
      hv]
  · intro w hsome
    by_cases hk : w ∈ alistKeys stC.unseen
    · exact Or.inr ⟨by rw [hunseen, finalizeUnseen_keys]; exact hk,
        hoovkeys w hk⟩
    · rw [hfinal,
        mergeUnseen_notmem stC.counts stC.unseen res.gloveEmbeds w hk] at hsome
      exact Or.inl hsome
  · rw [hunseen, finalizeUnseen_keys]
    exact hnodup

/-- C5: every token appearing in the premise or hypothesis of any example of
any materialized partition is a member of the vocabulary word set built
before any embedding lookup. -/
theorem c5_vocabulary_complete (cfg : Config) (pf : String → Option ℚ)
    (a b c g : List String) (res : PipelineResult)
    (hok : pipeline cfg pf a b c g = .ok res) :
    ∀ ex : Example, (ex ∈ res.train ∨ ex ∈ res.valid ∨ ex ∈ res.test) →
      ∀ w, (w ∈ ex.1 ∨ w ∈ ex.2.1) → w ∈ res.wordSet := by
  obtain ⟨tr, stA, va, stB, te, stC, h1, h2, h3, h4, h5, htr, hva, hte,
    _, _, _⟩ := pipeline_ok_elim cfg pf a b c g res hok
  have hws := build_word_set_ok_spec a b c res.wordSet h1
  obtain ⟨htrEq, _⟩ := load_ok_spec res.gloveEmbeds cfg a 0 [] initState tr stA h3
  obtain ⟨hvaEq, _⟩ := load_ok_spec res.gloveEmbeds cfg b 0 [] stA va stB h4
  obtain ⟨hteEq, _⟩ := load_ok_spec res.gloveEmbeds cfg c 0 [] stB te stC h5
  rw [List.nil_append] at htrEq hvaEq hteEq
  intro ex hex w hw
  have hwrec : ∀ lines : List String,
      ex ∈ (List.enumFrom 0 lines).filterMap recordOf →
      w ∈ (List.enumFrom 0 lines).flatMap recordTokens := by
    intro lines hexl
    obtain ⟨p, hp, hpe⟩ := List.mem_filterMap.mp hexl
    refine List.mem_flatMap.mpr ⟨p, hp, ?_⟩
    rw [recordOf_tokens p ex hpe]
    exact List.mem_append.mpr hw
  rw [hws]
  rcases hex with h | h | h
  · rw [htr, htrEq] at h
    exact List.mem_append.mpr (Or.inl (List.mem_append.mpr (Or.inl (hwrec a h))))
  · rw [hva, hvaEq] at h
    exact List.mem_append.mpr (Or.inl (List.mem_append.mpr (Or.inr (hwrec b h))))
  · rw [hte, hteEq] at h
    exact List.mem_append.mpr (Or.inr (hwrec c h))

/-- C10: every value stored in the contribution-count map is strictly
positive (a key is inserted only together with its first contribution), and
finalization leaves the table untouched at any word with no count entry, so
the division in finalization never has a zero divisor. -/
theorem c10_counts_positive (cfg : Config) (pf : String → Option ℚ)
    (a b c g : List String) (res : PipelineResult)
    (hok : pipeline cfg pf a b c g = .ok res) :
    (∀ w n, res.counts w = some n → 0 < n) ∧
    (∀ w, res.counts w = none → res.finalEmbeds w = res.gloveEmbeds w) := by
  obtain ⟨stC, hcounts, hunseen, hfinal, ⟨hU, hC⟩, hnodup, hoovkeys⟩ :=
    pipeline_final_state cfg pf a b c g res hok
  refine ⟨?_, ?_⟩
  · intro w n hn
    rw [hcounts] at hn
    have hcc := hC w
    rw [hn] at hcc
    by_cases hlen : (evContribs (corpusEvents res.gloveEmbeds cfg
        (allSentences res)) w).length = 0
    · rw [if_pos hlen] at hcc
      exact Option.noConfusion hcc
    · rw [if_neg hlen] at hcc
      injection hcc with hcc
      rw [hcc]
      exact Nat.pos_of_ne_zero hlen
  · intro w hn
    rw [hcounts] at hn
    rw [hfinal,
      mergeUnseen_counts_none stC.counts stC.unseen res.gloveEmbeds w hn]

/-- C4: loading a partition file skips the header line (position 0)
unconditionally, never appends a record whose label column is `-`, and
appends a record with a recognized label exactly once, as the triple of its
bracket-stripped premise tokens, bracket-stripped hypothesis tokens, and the
integer label with entailment = 0, contradiction = 1, neutral = 2. -/
theorem c4_record_retention (emb : Embeds) (cfg : Config) (lines : List String)
    (st : OOVState) (exs : List Example) (st' : OOVState)
    (h : load emb cfg 0 lines [] st = .ok (exs, st')) :
    exs = (List.enumFrom 0 lines).filterMap recordOf := by
  have h1 := (load_ok_spec emb cfg lines 0 [] st exs st' h).1
  simpa using h1

/-- C6: the loaded pretrained table's domain is exactly the words that begin
some line of the pretrained file and are vocabulary members; each stored
vector is the parse of the trailing space-separated fields of such a line;
and a line whose first field is not a vocabulary member is discarded without
its vector fields being parsed (the result is independent of the parse
function's behavior on those fields). -/
theorem c6_glove_load (pf : String → Option ℚ) (ws lines : List String)
    (emb : Embeds) (h : get_glove pf ws lines (fun _ => none) = .ok emb) :
    (∀ x, (emb x).isSome = true ↔
      (x ∈ ws ∧ ∃ line ∈ lines, (splitStr ' ' line).getD 0 "" = x)) ∧
    (∀ x v, emb x = some v → x ∈ ws ∧ ∃ line ∈ lines,
      (splitStr ' ' line).getD 0 "" = x ∧
      (splitStr ' ' line).tail.mapM pf = some v) ∧
    (∀ pf2 : String → Option ℚ,
      (∀ line ∈ lines, (splitStr ' ' line).getD 0 "" ∈ ws →
        ∀ f ∈ (splitStr ' ' line).tail, pf f = pf2 f) →
      get_glove pf2 ws lines (fun _ => none) = .ok emb) := by
  refine ⟨?_, ?_, ?_⟩
  · intro x
    have h1 := get_glove_domain pf ws lines (fun _ => none) emb h x
    simpa using h1
  · intro x v hv
    rcases get_glove_values pf ws lines (fun _ => none) emb h x v hv with h1 | h1
    · exact h1
    · exact Option.noConfusion h1
  · intro pf2 hagree
    rw [← get_glove_parse_indep ws lines pf pf2 (fun _ => none) hagree]
    exact h

/-- C7: a record whose label column is neither `-` nor one of the three
recognized labels makes the load fail with the unknown-label error instead
of producing an example; a record with a recognized label proceeds normally;
and the label map is defined exactly on entailment ↦ 0, contradiction ↦ 1,
neutral ↦ 2. -/
theorem c7_unknown_label (emb : Embeds) (cfg : Config) (idx : ℕ)
    (line : String) (rest : List String) (acc : List Example) (st : OOVState)
    (h0 : ¬ idx = 0)
    (hdash : ¬ (lineCols line).getD 0 "" = "-")
    (hlen : ¬ (lineCols line).length < 3) :
    (label_dict ((lineCols line).getD 0 "") = none →
      load emb cfg idx (line :: rest) acc st =
        .error (.unknownLabel ((lineCols line).getD 0 ""))) ∧
    (∀ y, label_dict ((lineCols line).getD 0 "") = some y →
      load emb cfg idx (line :: rest) acc st =
        load emb cfg (idx + 1) rest
          (acc ++ [(sentTokens ((lineCols line).getD 1 ""),
            sentTokens ((lineCols line).getD 2 ""), y)])
          (approximate_unseen emb cfg
            (approximate_unseen emb cfg st
              (sentTokens ((lineCols line).getD 1 "")))
            (sentTokens ((lineCols line).getD 2 "")))) ∧
    label_dict "entailment" = some 0 ∧
    label_dict "contradiction" = some 1 ∧
    label_dict "neutral" = some 2 ∧
    (∀ s y, label_dict s = some y →
      (s = "entailment" ∧ y = 0) ∨ (s = "contradiction" ∧ y = 1) ∨
      (s = "neutral" ∧ y = 2)) := by
  refine ⟨?_, ?_, by decide, by decide, by decide, ?_⟩
  · intro hnone
    simp only [load, h0, if_false, hdash, hlen, hnone, if_true]
  · intro y hy
    simp only [load, h0, if_false, hdash, hlen, hy, if_true]
  · intro s y h
    unfold label_dict at h
    by_cases h1 : s = "entailment"
    · rw [if_pos h1] at h
      injection h with h
      exact Or.inl ⟨h1, h.symm⟩
    · rw [if_neg h1] at h
      by_cases h2 : s = "contradiction"
      · rw [if_pos h2] at h
        injection h with h
        exact Or.inr (Or.inl ⟨h2, h.symm⟩)
      · rw [if_neg h2] at h
        by_cases h3 : s = "neutral"
        · rw [if_pos h3] at h
          injection h with h
          exact Or.inr (Or.inr ⟨h3, h.symm⟩)
        · rw [if_neg h3] at h
          exact Option.noConfusion h

/-- C8: collating a batch of index-mapped examples whose premise sequences
share length `L` yields an int64 premise matrix of shape `[N, L]` from the
first fields and an int64 label vector of shape `[N]` from the third fields,
with every label value in 0, 1, 2. -/
theorem c8_collation_shape (b : List (List ℤ × List ℤ × ℤ)) (L : ℕ)
    (hL : ∀ e ∈ b, e.1.length = L)
    (hlab : ∀ e ∈ b, e.2.2 = 0 ∨ e.2.2 = 1 ∨ e.2.2 = 2) :
    (batchify b).1.length = b.length ∧
    (∀ row ∈ (batchify b).1, row.length = L) ∧
    (batchify b).2.length = b.length ∧
    (∀ v ∈ (batchify b).2, v = 0 ∨ v = 1 ∨ v = 2) := by
  refine ⟨?_, ?_, ?_, ?_⟩
  · simp [batchify]
  · intro row hrow
    simp only [batchify] at hrow
    obtain ⟨e, he, hrow⟩ := List.mem_map.mp hrow
    rw [← hrow]
    simp [hL e he]
  · simp [batchify]
  · intro v hv
    simp only [batchify] at hv
    obtain ⟨e, he, hv⟩ := List.mem_map.mp hv
    rcases hlab e he with h | h | h
    · left
      rw [← hv, h]
      decide
    · right; left
      rw [← hv, h]
      decide
    · right; right
      rw [← hv, h]
      decide

/-- C9: the pipeline is deterministic — two runs on equal configurations,
equal parse functions and equal input files produce equal word sets, equal
pretrained tables, equal final embedding tables, and equal example lists for
each partition. -/
theorem c9_pipeline_deterministic (cfg cfg' : Config)
    (pf pf' : String → Option ℚ) (a a' b b' c c' g g' : List String)
    (r r' : PipelineResult)
    (hcfg : cfg = cfg') (hpf : pf = pf') (ha : a = a') (hb : b = b')
    (hc : c = c') (hg : g = g')
    (hr : pipeline cfg pf a b c g = .ok r)
    (hr' : pipeline cfg' pf' a' b' c' g' = .ok r') :
    r.wordSet = r'.wordSet ∧ r.gloveEmbeds = r'.gloveEmbeds ∧
    r.finalEmbeds = r'.finalEmbeds ∧ r.train = r'.train ∧
    r.valid = r'.valid ∧ r.test = r'.test := by
  subst hcfg
  subst hpf
  subst ha
  subst hb
  subst hc
  subst hg
  rw [hr] at hr'
  injection hr' with h
  rw [h]
  exact ⟨rfl, rfl, rfl, rfl, rfl, rfl⟩

/-! ### Concrete instances -/

/-- Window size 1, embedding dimension 2, as in the spec's worked example. -/
def cfgW : Config := ⟨2, 1⟩

/-- A parse function for the concrete pretrained file below. -/
def pfW : String → Option ℚ := fun s =>
  if s = "1.0" then some 1
  else if s = "3.0" then some 3
  else if s = "0.0" then some 0
  else none

def trainW : List String :=
  ["gold_label\tsentence1\tsentence2", "entailment\t( a ( b ) c )\t( a )"]

def gloveW : List String := ["a 1.0 0.0", "c 3.0 0.0", "zz 9.0 9.0"]

def emptyResult : PipelineResult :=
  ⟨[], fun _ => none, [], fun _ => none, [], [], [], fun _ => none⟩

def resW : PipelineResult :=
  match pipeline cfgW pfW trainW [] [] gloveW with
  | .ok r => r
  | .error _ => emptyResult

/-- A train file whose only record's tokens are all OOV (empty pretrained
file), so the OOV token "b" accumulates no contribution. -/
def trainZ : List String :=
  ["gold_label\tsentence1\tsentence2", "entailment\tb\tb"]

def resZ : PipelineResult :=
  match pipeline cfgW (fun _ => none) trainZ [] [] [] with
  | .ok r => r
  | .error _ => emptyResult

def loadLinesW : List String :=
  ["gold_label\tsentence1\tsentence2", "-\tx\ty",
   "contradiction\t( a )\t( b b )"]

def loadResW : List Example × OOVState :=
  match load (fun _ => none) cfgW 0 loadLinesW [] initState with
  | .ok p => p
  | .error _ => ([], initState)

def gloveResW : Embeds :=
  match get_glove pfW ["a", "c"] gloveW (fun _ => none) with
  | .ok emb => emb
  | .error _ => fun _ => none

/-- C2 counterexample: on this input the OOV token "b" occurs in a retained
train record, its contribution count is zero, and after finalization the
embedding table has NO entry for it — contradicting the claim that every
encountered OOV token gets an entry (zero vector in the zero-count case). -/
theorem c2_counterexample :
    pipeline cfgW (fun _ => none) trainZ [] [] [] = .ok resZ ∧
    (∃ ex ∈ resZ.train, "b" ∈ ex.1) ∧
    resZ.gloveEmbeds "b" = none ∧
    resZ.counts "b" = none ∧
    resZ.finalEmbeds "b" = none := by
  refine ⟨rfl, ⟨(["b"], ["b"], 0), by decide, by decide⟩, by decide,
    by decide, by decide⟩

theorem c1_witness :
    pipeline cfgW pfW trainW [] [] gloveW = .ok resW ∧
    resW.counts "b" = some 2 ∧
    (resW.gloveEmbeds "b" = none ∧
    2 = (corpusContribs resW.gloveEmbeds cfgW.window_size
      (allSentences resW) "b").length ∧
    resW.finalEmbeds "b" =
      some (vecDiv ((corpusContribs resW.gloveEmbeds cfgW.window_size
        (allSentences resW) "b").foldl vecAdd
        (zerosVec cfgW.embedding_dim)) 2)) :=
  ⟨rfl, by decide,
    c1_oov_contextual_average cfgW pfW trainW [] [] gloveW resW "b" 2 rfl
      (by decide)⟩

theorem c2_witness :
    pipeline cfgW pfW trainW [] [] gloveW = .ok resW ∧
    (["a", "b", "c"], ["a"], 0) ∈ resW.train ∧
    "b" ∈ (["a", "b", "c"] : List String) ∧
    resW.gloveEmbeds "b" = none ∧
    ("b" ∈ alistKeys resW.unseen ∧
    ((∃ n, resW.counts "b" = some n) → (resW.finalEmbeds "b").isSome = true) ∧
    (resW.counts "b" = none → resW.finalEmbeds "b" = none)) :=
  ⟨rfl, by decide, by decide, by decide,
    c2_amended_oov_coverage cfgW pfW trainW [] [] gloveW resW "b" rfl
      ⟨(["a", "b", "c"], ["a"], 0), Or.inl (by decide), Or.inl (by decide)⟩
      (by decide)⟩

theorem c3_witness :
    pipeline cfgW pfW trainW [] [] gloveW = .ok resW ∧
    ((∀ w v, resW.gloveEmbeds w = some v → resW.finalEmbeds w = some v) ∧
    (∀ w, (resW.finalEmbeds w).isSome = true →
      (resW.gloveEmbeds w).isSome = true ∨
        (w ∈ alistKeys resW.unseen ∧ resW.gloveEmbeds w = none)) ∧
    (alistKeys resW.unseen).Nodup) :=
  ⟨rfl, c3_merge_frame cfgW pfW trainW [] [] gloveW resW rfl⟩

theorem c4_witness :
    load (fun _ => none) cfgW 0 loadLinesW [] initState =
      .ok (loadResW.1, loadResW.2) ∧
    loadResW.1 = (List.enumFrom 0 loadLinesW).filterMap recordOf ∧
    loadResW.1 = [(["a"], ["b", "b"], 1)] :=
  ⟨rfl,
    c4_record_retention (fun _ => none) cfgW loadLinesW initState
      loadResW.1 loadResW.2 rfl,
    by decide⟩

theorem c5_witness :
    pipeline cfgW pfW trainW [] [] gloveW = .ok resW ∧
    (["a", "b", "c"], ["a"], 0) ∈ resW.train ∧
    "b" ∈ resW.wordSet :=
  ⟨rfl, by decide,
    c5_vocabulary_complete cfgW pfW trainW [] [] gloveW resW rfl
      (["a", "b", "c"], ["a"], 0) (Or.inl (by decide)) "b"
      (Or.inl (by decide))⟩

theorem c6_witness :
    get_glove pfW ["a", "c"] gloveW (fun _ => none) = .ok gloveResW ∧
    ((∀ x, (gloveResW x).isSome = true ↔
      (x ∈ (["a", "c"] : List String) ∧
        ∃ line ∈ gloveW, (splitStr ' ' line).getD 0 "" = x)) ∧
    (∀ x v, gloveResW x = some v → x ∈ (["a", "c"] : List String) ∧
      ∃ line ∈ gloveW, (splitStr ' ' line).getD 0 "" = x ∧
      (splitStr ' ' line).tail.mapM pfW = some v) ∧
    (∀ pf2 : String → Option ℚ,
      (∀ line ∈ gloveW, (splitStr ' ' line).getD 0 "" ∈
          (["a", "c"] : List String) →
        ∀ f ∈ (splitStr ' ' line).tail, pfW f = pf2 f) →
      get_glove pf2 ["a", "c"] gloveW (fun _ => none) = .ok gloveResW)) :=
  ⟨rfl, c6_glove_load pfW ["a", "c"] gloveW gloveResW rfl⟩

theorem c7_witness :
    (¬ (1 : ℕ) = 0) ∧
    (¬ (lineCols "mystery\ta\tb").getD 0 "" = "-") ∧
    (¬ (lineCols "mystery\ta\tb").length < 3) ∧
    load (fun _ => none) cfgW 1 ["mystery\ta\tb"] [] initState =
      .error (.unknownLabel "mystery") := by
  refine ⟨by decide, by decide, by decide, ?_⟩
  have h := (c7_unknown_label (fun _ => none) cfgW 1 "mystery\ta\tb" [] []
    initState (by decide) (by decide) (by decide)).1 (by decide)
  have hcol : (lineCols "mystery\ta\tb").getD 0 "" = "mystery" := by decide
  rw [hcol] at h
  exact h

theorem c8_witness :
    (∀ e ∈ ([([5, 7], [1], 2), ([9, 4], [], 0)] :
        List (List ℤ × List ℤ × ℤ)), e.1.length = 2) ∧
    (∀ e ∈ ([([5, 7], [1], 2), ([9, 4], [], 0)] :
        List (List ℤ × List ℤ × ℤ)), e.2.2 = 0 ∨ e.2.2 = 1 ∨ e.2.2 = 2) ∧
    ((batchify [([5, 7], [1], 2), ([9, 4], [], 0)]).1.length = 2 ∧
    (∀ row ∈ (batchify [([5, 7], [1], 2), ([9, 4], [], 0)]).1,
      row.length = 2) ∧
    (batchify [([5, 7], [1], 2), ([9, 4], [], 0)]).2.length = 2 ∧
    (∀ v ∈ (batchify [([5, 7], [1], 2), ([9, 4], [], 0)]).2,
      v = 0 ∨ v = 1 ∨ v = 2)) :=
  ⟨by decide, by decide,
    c8_collation_shape [([5, 7], [1], 2), ([9, 4], [], 0)] 2
      (by decide) (by decide)⟩

theorem c9_witness :
    pipeline cfgW pfW trainW [] [] gloveW = .ok resW ∧
    (resW.wordSet = resW.wordSet ∧ resW.gloveEmbeds = resW.gloveEmbeds ∧
    resW.finalEmbeds = resW.finalEmbeds ∧ resW.train = resW.train ∧
    resW.valid = resW.valid ∧ resW.test = resW.test) :=
  ⟨rfl, c9_pipeline_deterministic cfgW cfgW pfW pfW trainW trainW [] []
    [] [] gloveW gloveW resW resW rfl rfl rfl rfl rfl rfl rfl rfl⟩

theorem c10_witness :
    pipeline cfgW pfW trainW [] [] gloveW = .ok resW ∧
    ((∀ w n, resW.counts w = some n → 0 < n) ∧
    (∀ w, resW.counts w = none → resW.finalEmbeds w = resW.gloveEmbeds w)) :=
  ⟨rfl, c10_counts_positive cfgW pfW trainW [] [] gloveW resW rfl⟩
